import Mathlib

/-!
Shallow embedding of the market-neutral weight calculator from the
notebook `strategy.ipynb`.

The source computes, inside `step(data)`:

    is_liquid = data.loc[::-1,"is_liquid",:]
    prices = data.loc[::-1, "close",:]
    prices_shifted = prices.shift({"time":1})
    returns = (prices - prices_shifted)/prices_shifted
    avg_returns = returns.rolling({"time":100}).mean()
    liq_avg_returns = (is_liquid > 0.0).astype(int) * avg_returns
    liq_avg_returns_mean = liq_avg_returns.where(is_liquid > 0.0).mean("asset")
    liq_avg_returns_neutralized = liq_avg_returns - liq_avg_returns_mean
    liq_avg_returns_neutralized = (is_liquid > 0.0).astype(int) * liq_avg_returns_neutralized
    weights = liq_avg_returns_neutralized / abs(liq_avg_returns_neutralized).sum("asset")
    weights = weights.fillna(0.0)
    return weights[-1]

Modelling conventions:
  * A panel is a pair of total functions `price : Nat → Nat → Option ℚ`
    (time, asset; `none` = missing/NaN) and `liquid : Nat → Nat → ℚ`,
    together with a number of time steps `T` and of assets `A`.
    Arithmetic is exact rational arithmetic; a NaN intermediate value is
    `none`.
  * `data.loc[::-1, ...]` is a positional reversal of the time axis
    (`slice(None, None, -1)`), modelled by `revPanel`; `weights[-1]`
    selects the last position of the reversed series, i.e. position
    `T - 1` of the pipeline run on the reversed panel.
  * `shift` puts NaN at the first position, so the return at time 0 is
    `none`; a return whose numerator or denominator price is missing is
    `none`; division of a price difference by a zero price is modelled
    as `none` (undefined) as well.
  * `rolling({"time":100}).mean()` uses the xarray default
    `min_periods = window`, so the rolling mean is NaN unless all 100
    values of the trailing window are present.
  * Multiplying the 0/1 liquidity mask into a NaN keeps the NaN
    (`0 * NaN = NaN` in IEEE arithmetic), so masking by multiplication
    only zeroes *defined* entries; `where(...).mean("asset")` and
    `abs(...).sum("asset")` skip NaN entries, an all-NaN mean being NaN
    and an all-NaN sum being 0; `x / 0` with `x` NaN-or-zero is NaN and
    `fillna(0.0)` turns every NaN into 0.
-/

/-- Per-asset per-day simple return of the `step` pipeline,
`returns = (prices - prices_shifted)/prices_shifted` where
`prices_shifted = prices.shift({"time":1})`: `none` at time 0 (shift
introduces NaN), when either price is missing, or when the shifted
(denominator) price is zero. -/
def ret (price : Nat → Nat → Option ℚ) (t a : Nat) : Option ℚ :=
  if t = 0 then none
  else
    match price (t - 1) a, price t a with
    | some p0, some p1 => if p0 = 0 then none else some ((p1 - p0) / p0)
    | _, _ => none

/-- Trailing rolling mean over a window of 100 entries,
`returns.rolling({"time":100}).mean()` with the default
`min_periods = window`: defined only when the window [t-99, t] exists
(`99 ≤ t`) and all 100 entries of the window are defined, in which case
it is their arithmetic mean.  Parameterized over the return series so
that the same downstream pipeline serves both the xarray `step` and the
pandas variant of the notebook. -/
def avgRetOf (retFn : Nat → Nat → Option ℚ) (t a : Nat) : Option ℚ :=
  if 99 ≤ t ∧ ∀ i ∈ Finset.range 100, (retFn (t - 99 + i) a).isSome = true then
    some (Finset.sum (Finset.range 100) (fun i => (retFn (t - 99 + i) a).getD 0) / 100)
  else none

/-- Liquidity-masked signal,
`liq_avg_returns = (is_liquid > 0.0).astype(int) * avg_returns`:
multiplying the 0/1 mask into NaN keeps NaN, so a missing rolling mean
stays missing even for an illiquid asset. -/
def liqAvgOf (liquid : Nat → Nat → ℚ) (retFn : Nat → Nat → Option ℚ) (t a : Nat) :
    Option ℚ :=
  match avgRetOf retFn t a with
  | none => none
  | some v => some (if 0 < liquid t a then v else 0)

/-- Assets that contribute to the cross-sectional mean at time `t`:
liquid ones whose masked signal is defined
(`liq_avg_returns.where(is_liquid > 0.0)` keeps exactly these, and
`mean("asset")` skips the NaN rest). -/
def liqSet (liquid : Nat → Nat → ℚ) (retFn : Nat → Nat → Option ℚ) (A t : Nat) :
    Finset Nat :=
  (Finset.range A).filter
    (fun a => 0 < liquid t a ∧ (liqAvgOf liquid retFn t a).isSome = true)

/-- Cross-sectional mean over liquid assets,
`liq_avg_returns.where(is_liquid > 0.0).mean("asset")`: NaN entries are
skipped, and the mean of an empty set is NaN. -/
def liqMeanOf (liquid : Nat → Nat → ℚ) (retFn : Nat → Nat → Option ℚ) (A t : Nat) :
    Option ℚ :=
  if (liqSet liquid retFn A t).card = 0 then none
  else
    some ((liqSet liquid retFn A t).sum (fun a => (liqAvgOf liquid retFn t a).getD 0) /
      (liqSet liquid retFn A t).card)

/-- Neutralized signal,
`liq_avg_returns - liq_avg_returns_mean`: NaN on either side propagates. -/
def neutOf (liquid : Nat → Nat → ℚ) (retFn : Nat → Nat → Option ℚ) (A t a : Nat) :
    Option ℚ :=
  match liqAvgOf liquid retFn t a, liqMeanOf liquid retFn A t with
  | some v, some m => some (v - m)
  | _, _ => none

/-- Re-masked neutralized signal, the second
`(is_liquid > 0.0).astype(int) * liq_avg_returns_neutralized`: again
`0 * NaN = NaN`, so only defined entries are zeroed for illiquid assets. -/
def neut2Of (liquid : Nat → Nat → ℚ) (retFn : Nat → Nat → Option ℚ) (A t a : Nat) :
    Option ℚ :=
  match neutOf liquid retFn A t a with
  | none => none
  | some v => some (if 0 < liquid t a then v else 0)

/-- Normalization denominator,
`abs(liq_avg_returns_neutralized).sum("asset")`: NaN entries are skipped
(`getD 0` contributes `|0| = 0`), and an all-NaN sum is 0. -/
def absSumOf (liquid : Nat → Nat → ℚ) (retFn : Nat → Nat → Option ℚ) (A t : Nat) : ℚ :=
  (Finset.range A).sum (fun a => |(neut2Of liquid retFn A t a).getD 0|)

/-- Final weight after `weights = neutralized / abs(neutralized).sum("asset")`
and `weights.fillna(0.0)`: a NaN numerator becomes 0, and 0/0 (a zero
denominator forces every defined numerator to be zero, since the
denominator bounds its absolute value) is NaN in IEEE arithmetic and
becomes 0 through `fillna`. -/
def weightOf (liquid : Nat → Nat → ℚ) (retFn : Nat → Nat → Option ℚ) (A t a : Nat) : ℚ :=
  match neut2Of liquid retFn A t a with
  | none => 0
  | some v =>
      if absSumOf liquid retFn A t = 0 then 0 else v / absSumOf liquid retFn A t

/-- Weights series of the `step` pipeline on a time axis given in
ascending chronological order: the weight of asset `a` at time `t`. -/
def weightAt (price : Nat → Nat → Option ℚ) (liquid : Nat → Nat → ℚ) (A t a : Nat) : ℚ :=
  weightOf liquid (ret price) A t a

/-- Panel of observations: `T` time steps, `A` assets, a close price
(`none` = missing) and a liquidity indicator per (time, asset). -/
structure Panel where
  T : Nat
  A : Nat
  price : Nat → Nat → Option ℚ
  liquid : Nat → Nat → ℚ

/-- Positional reversal of the time axis, `data.loc[::-1, ...]`. -/
def revPanel (P : Panel) : Panel :=
  { T := P.T, A := P.A,
    price := fun t a => P.price (P.T - 1 - t) a,
    liquid := fun t a => P.liquid (P.T - 1 - t) a }

/-- The notebook's `step(data)`: reverse the supplied panel's time axis,
run the pipeline along the reversed (position-ascending) axis, and
return `weights[-1]`, the weight vector at the last position `T - 1` of
the reversed series (which is position 0 of the panel as supplied). -/
def step (P : Panel) (a : Nat) : ℚ :=
  weightAt (revPanel P).price (revPanel P).liquid P.A (P.T - 1) a

/-- Forward-filled ("padded") price series: the last present price at or
before `t`, as produced by pandas `fillna(method="pad")`, which
`pct_change(1)` applies to its input by default (`fill_method="pad"`). -/
def padPrice (price : Nat → Nat → Option ℚ) : Nat → Nat → Option ℚ
  | 0, a => price 0 a
  | t + 1, a =>
    match price (t + 1) a with
    | some p => some p
    | none => padPrice price t a

/-- Return series of the notebook's pandas pipeline,
`returns = prices.pct_change(1)`: forward-fill the prices, then
`padded[t] / padded[t-1] - 1`; `none` at time 0, where a padded price is
still missing, or where the denominator is zero. -/
def pctRet (price : Nat → Nat → Option ℚ) (t a : Nat) : Option ℚ :=
  if t = 0 then none
  else
    match padPrice price (t - 1) a, padPrice price t a with
    | some p0, some p1 => if p0 = 0 then none else some (p1 / p0 - 1)
    | _, _ => none

/-- Weights series of the notebook's pandas pipeline (cell 3): identical
to the `step` pipeline except that returns come from `pct_change`. -/
def pandasWeightAt (price : Nat → Nat → Option ℚ) (liquid : Nat → Nat → ℚ)
    (A t a : Nat) : ℚ :=
  weightOf liquid (pctRet price) A t a

/-- Reference trailing mean from the spec:
`avg_return[t,a] = mean(return[t-99..t, a])`, the arithmetic mean of the
100 returns of the window written with inclusive index bounds. -/
def specAvgReturn (price : Nat → Nat → Option ℚ) (t a : Nat) : ℚ :=
  Finset.sum (Finset.Icc (t - 99) t) (fun i => (ret price i a).getD 0) / 100

/-- Constant price series: every asset costs 1 at every time. -/
def cPrice : Nat → Nat → Option ℚ := fun _ _ => some 1

/-- Everything-liquid indicator. -/
def oneLiq : Nat → Nat → ℚ := fun _ _ => 1

/-- Nothing-liquid indicator. -/
def zeroLiq : Nat → Nat → ℚ := fun _ _ => 0

/-- Price series where asset 1 jumps from 1 to 2 at time 100 and
everything else is constant at 1. -/
def bPrice : Nat → Nat → Option ℚ :=
  fun t a => if a = 1 ∧ t = 100 then some 2 else some 1

/-- Time reversal of `bPrice` on 101 time steps: asset 1 costs 2 at
position 0 and 1 afterwards. -/
def rbPrice : Nat → Nat → Option ℚ :=
  fun t a => if a = 1 ∧ t = 0 then some 2 else some 1

/-- Cost series with a missing observation: like `bPrice` but asset 1's
price is absent at time 50. -/
def gPrice : Nat → Nat → Option ℚ :=
  fun t a =>
    if a = 1 ∧ t = 50 then none
    else if a = 1 ∧ t = 100 then some 2 else some 1

/-- Price series that is 1 up to time 5 and 2 afterwards (used to
exhibit agreement up to a cutoff time). -/
def wPrice : Nat → Nat → Option ℚ :=
  fun t _ => if t ≤ 5 then some 1 else some 2

/-- Price series missing exactly at time 99. -/
def hPrice : Nat → Nat → Option ℚ :=
  fun t _ => if t = 99 then none else some 1

/-- Ascending 101-step, 2-asset panel built on `bPrice`. -/
def bumpPanel : Panel := { T := 101, A := 2, price := bPrice, liquid := oneLiq }

/-- Ascending 101-step, 2-asset panel built on `gPrice`. -/
def gapPanel : Panel := { T := 101, A := 2, price := gPrice, liquid := oneLiq }

/-- Short panel with only 5 time steps. -/
def smallPanel : Panel := { T := 5, A := 2, price := cPrice, liquid := oneLiq }

/-- One-step, one-asset panel. -/
def tinyPanel : Panel := { T := 1, A := 1, price := cPrice, liquid := oneLiq }

/-! Evaluation lemmas for the return series. -/

theorem ret_zero (price : Nat → Nat → Option ℚ) (a : Nat) : ret price 0 a = none := by
  simp [ret]

theorem ret_eq_some (price : Nat → Nat → Option ℚ) (t a : Nat) (p0 p1 : ℚ)
    (ht : t ≠ 0) (h0 : price (t - 1) a = some p0) (hz : p0 ≠ 0)
    (h1 : price t a = some p1) : ret price t a = some ((p1 - p0) / p0) := by
  simp [ret, ht, h0, h1, hz]

theorem ret_eq_none_of_denom_none (price : Nat → Nat → Option ℚ) (t a : Nat)
    (h0 : price (t - 1) a = none) : ret price t a = none := by
  rcases Nat.eq_zero_or_pos t with rfl | ht
  · simp [ret]
  · simp [ret, Nat.pos_iff_ne_zero.mp ht, h0]

theorem ret_eq_none_of_denom_zero (price : Nat → Nat → Option ℚ) (t a : Nat)
    (h0 : price (t - 1) a = some 0) : ret price t a = none := by
  rcases Nat.eq_zero_or_pos t with rfl | ht
  · simp [ret]
  · cases hp : price t a <;> simp [ret, Nat.pos_iff_ne_zero.mp ht, h0, hp]

theorem ret_eq_none_of_num_none (price : Nat → Nat → Option ℚ) (t a : Nat)
    (h1 : price t a = none) : ret price t a = none := by
  rcases Nat.eq_zero_or_pos t with rfl | ht
  · simp [ret]
  · cases hp : price (t - 1) a <;> simp [ret, Nat.pos_iff_ne_zero.mp ht, h1, hp]

/-! Evaluation lemmas for the rolling mean. -/

theorem avgRetOf_eq_some (retFn : Nat → Nat → Option ℚ) (t a : Nat)
    (h99 : 99 ≤ t)
    (hdef : ∀ i ∈ Finset.range 100, (retFn (t - 99 + i) a).isSome = true) :
    avgRetOf retFn t a =
      some (Finset.sum (Finset.range 100) (fun i => (retFn (t - 99 + i) a).getD 0) / 100) := by
  rw [avgRetOf, if_pos ⟨h99, hdef⟩]

theorem avgRetOf_eq_none_of_lt (retFn : Nat → Nat → Option ℚ) (t a : Nat)
    (h : t < 99) : avgRetOf retFn t a = none := by
  rw [avgRetOf, if_neg]
  rintro ⟨h99, -⟩
  omega

theorem avgRetOf_eq_none_of_undef (retFn : Nat → Nat → Option ℚ) (t a i0 : Nat)
    (hi : i0 ∈ Finset.range 100) (h : retFn (t - 99 + i0) a = none) :
    avgRetOf retFn t a = none := by
  rw [avgRetOf, if_neg]
  rintro ⟨-, hall⟩
  have := hall i0 hi
  rw [h] at this
  simp at this

/-- The rolling mean of the `step` return series is undefined at every
time step with fewer than 100 trailing returns: the window either does
not exist (`t < 99`) or contains the undefined return at time 0. -/
theorem avgRet_ret_none_of_lt100 (price : Nat → Nat → Option ℚ) (t a : Nat)
    (h : t < 100) : avgRetOf (ret price) t a = none := by
  rcases Nat.lt_or_ge t 99 with hlt | hge
  · exact avgRetOf_eq_none_of_lt _ _ _ hlt
  · have ht : t = 99 := by omega
    subst ht
    exact avgRetOf_eq_none_of_undef _ _ _ 0 (by norm_num) (by simpa using ret_zero price a)

/-! Congruence lemmas: each stage of the pipeline at time `t` reads the
input series only at times at or before `t`. -/

theorem ret_congr (p1 p2 : Nat → Nat → Option ℚ) (t a : Nat)
    (h : ∀ s, s ≤ t → ∀ b, p1 s b = p2 s b) : ret p1 t a = ret p2 t a := by
  rw [ret, ret, h t le_rfl a, h (t - 1) (Nat.sub_le t 1) a]

theorem avgRetOf_congr (r1 r2 : Nat → Nat → Option ℚ) (t a : Nat)
    (h : ∀ s, s ≤ t → ∀ b, r1 s b = r2 s b) : avgRetOf r1 t a = avgRetOf r2 t a := by
  rcases Nat.lt_or_ge t 99 with hlt | hge
  · rw [avgRetOf_eq_none_of_lt _ _ _ hlt, avgRetOf_eq_none_of_lt _ _ _ hlt]
  · have hr : ∀ i ∈ Finset.range 100, r1 (t - 99 + i) a = r2 (t - 99 + i) a := by
      intro i hi
      rw [Finset.mem_range] at hi
      exact h _ (by omega) a
    rw [avgRetOf, avgRetOf]
    have hc : (99 ≤ t ∧ ∀ i ∈ Finset.range 100, (r1 (t - 99 + i) a).isSome = true) ↔
        (99 ≤ t ∧ ∀ i ∈ Finset.range 100, (r2 (t - 99 + i) a).isSome = true) := by
      constructor <;> rintro ⟨h99, hall⟩ <;> refine ⟨h99, fun i hi => ?_⟩
      · rw [← hr i hi]
        exact hall i hi
      · rw [hr i hi]
        exact hall i hi
    rw [if_congr hc (by rw [Finset.sum_congr rfl fun i hi => by rw [hr i hi]]) rfl]

theorem liqAvgOf_congr (l1 l2 : Nat → Nat → ℚ) (r1 r2 : Nat → Nat → Option ℚ) (t a : Nat)
    (h : ∀ s, s ≤ t → ∀ b, r1 s b = r2 s b) (hl : ∀ b, l1 t b = l2 t b) :
    liqAvgOf l1 r1 t a = liqAvgOf l2 r2 t a := by
  rw [liqAvgOf, liqAvgOf, avgRetOf_congr r1 r2 t a h, hl a]

theorem liqSet_congr (l1 l2 : Nat → Nat → ℚ) (r1 r2 : Nat → Nat → Option ℚ) (A t : Nat)
    (h : ∀ s, s ≤ t → ∀ b, r1 s b = r2 s b) (hl : ∀ b, l1 t b = l2 t b) :
    liqSet l1 r1 A t = liqSet l2 r2 A t := by
  rw [liqSet, liqSet]
  refine Finset.filter_congr fun a _ => ?_
  rw [liqAvgOf_congr l1 l2 r1 r2 t a h hl, hl a]

theorem liqMeanOf_congr (l1 l2 : Nat → Nat → ℚ) (r1 r2 : Nat → Nat → Option ℚ) (A t : Nat)
    (h : ∀ s, s ≤ t → ∀ b, r1 s b = r2 s b) (hl : ∀ b, l1 t b = l2 t b) :
    liqMeanOf l1 r1 A t = liqMeanOf l2 r2 A t := by
  rw [liqMeanOf, liqMeanOf, liqSet_congr l1 l2 r1 r2 A t h hl]
  rw [Finset.sum_congr rfl fun a _ => by rw [liqAvgOf_congr l1 l2 r1 r2 t a h hl]]

theorem neut2Of_congr (l1 l2 : Nat → Nat → ℚ) (r1 r2 : Nat → Nat → Option ℚ) (A t a : Nat)
    (h : ∀ s, s ≤ t → ∀ b, r1 s b = r2 s b) (hl : ∀ b, l1 t b = l2 t b) :
    neut2Of l1 r1 A t a = neut2Of l2 r2 A t a := by
  rw [neut2Of, neut2Of, neutOf, neutOf, liqAvgOf_congr l1 l2 r1 r2 t a h hl,
    liqMeanOf_congr l1 l2 r1 r2 A t h hl, hl a]

theorem absSumOf_congr (l1 l2 : Nat → Nat → ℚ) (r1 r2 : Nat → Nat → Option ℚ) (A t : Nat)
    (h : ∀ s, s ≤ t → ∀ b, r1 s b = r2 s b) (hl : ∀ b, l1 t b = l2 t b) :
    absSumOf l1 r1 A t = absSumOf l2 r2 A t := by
  rw [absSumOf, absSumOf]
  exact Finset.sum_congr rfl fun a _ => by
    rw [neut2Of_congr l1 l2 r1 r2 A t a h hl]

theorem weightOf_congr (l1 l2 : Nat → Nat → ℚ) (r1 r2 : Nat → Nat → Option ℚ) (A t a : Nat)
    (h : ∀ s, s ≤ t → ∀ b, r1 s b = r2 s b) (hl : ∀ b, l1 t b = l2 t b) :
    weightOf l1 r1 A t a = weightOf l2 r2 A t a := by
  rw [weightOf, weightOf, neut2Of_congr l1 l2 r1 r2 A t a h hl,
    absSumOf_congr l1 l2 r1 r2 A t h hl]

/-! Destructor lemmas, one per stage of the pipeline. -/

theorem liqAvgOf_none (l : Nat → Nat → ℚ) (r : Nat → Nat → Option ℚ) (t a : Nat)
    (h : avgRetOf r t a = none) : liqAvgOf l r t a = none := by
  simp only [liqAvgOf, h]

theorem liqAvgOf_some (l : Nat → Nat → ℚ) (r : Nat → Nat → Option ℚ) (t a : Nat) (v : ℚ)
    (h : avgRetOf r t a = some v) :
    liqAvgOf l r t a = some (if 0 < l t a then v else 0) := by
  simp only [liqAvgOf, h]

theorem neutOf_none_of_avg (l : Nat → Nat → ℚ) (r : Nat → Nat → Option ℚ) (A t a : Nat)
    (h : liqAvgOf l r t a = none) : neutOf l r A t a = none := by
  cases hm : liqMeanOf l r A t <;> simp only [neutOf, h, hm]

theorem neutOf_none_of_mean (l : Nat → Nat → ℚ) (r : Nat → Nat → Option ℚ) (A t a : Nat)
    (h : liqMeanOf l r A t = none) : neutOf l r A t a = none := by
  cases ha : liqAvgOf l r t a <;> simp only [neutOf, h, ha]

theorem neutOf_some (l : Nat → Nat → ℚ) (r : Nat → Nat → Option ℚ) (A t a : Nat) (v m : ℚ)
    (h1 : liqAvgOf l r t a = some v) (h2 : liqMeanOf l r A t = some m) :
    neutOf l r A t a = some (v - m) := by
  simp only [neutOf, h1, h2]

theorem neut2Of_none (l : Nat → Nat → ℚ) (r : Nat → Nat → Option ℚ) (A t a : Nat)
    (h : neutOf l r A t a = none) : neut2Of l r A t a = none := by
  simp only [neut2Of, h]

theorem neut2Of_some (l : Nat → Nat → ℚ) (r : Nat → Nat → Option ℚ) (A t a : Nat) (v : ℚ)
    (h : neutOf l r A t a = some v) :
    neut2Of l r A t a = some (if 0 < l t a then v else 0) := by
  simp only [neut2Of, h]

theorem weightOf_none (l : Nat → Nat → ℚ) (r : Nat → Nat → Option ℚ) (A t a : Nat)
    (h : neut2Of l r A t a = none) : weightOf l r A t a = 0 := by
  simp only [weightOf, h]

theorem weightOf_some (l : Nat → Nat → ℚ) (r : Nat → Nat → Option ℚ) (A t a : Nat) (v : ℚ)
    (h : neut2Of l r A t a = some v) :
    weightOf l r A t a =
      if absSumOf l r A t = 0 then 0 else v / absSumOf l r A t := by
  simp only [weightOf, h]

theorem liqMeanOf_of_card_eq_zero (l : Nat → Nat → ℚ) (r : Nat → Nat → Option ℚ) (A t : Nat)
    (h : (liqSet l r A t).card = 0) : liqMeanOf l r A t = none := by
  rw [liqMeanOf, if_pos h]

theorem liqMeanOf_of_card_ne_zero (l : Nat → Nat → ℚ) (r : Nat → Nat → Option ℚ) (A t : Nat)
    (h : (liqSet l r A t).card ≠ 0) :
    liqMeanOf l r A t =
      some ((liqSet l r A t).sum (fun a => (liqAvgOf l r t a).getD 0) /
        (liqSet l r A t).card) := by
  rw [liqMeanOf, if_neg h]

theorem neut2Of_none_of_avg (l : Nat → Nat → ℚ) (r : Nat → Nat → Option ℚ) (A t a : Nat)
    (h : avgRetOf r t a = none) : neut2Of l r A t a = none :=
  neut2Of_none l r A t a (neutOf_none_of_avg l r A t a (liqAvgOf_none l r t a h))

/-! Structural facts about the normalization stage. -/

theorem absSumOf_nonneg (l : Nat → Nat → ℚ) (r : Nat → Nat → Option ℚ) (A t : Nat) :
    0 ≤ absSumOf l r A t :=
  Finset.sum_nonneg fun _ _ => abs_nonneg _

theorem weightOf_illiquid (l : Nat → Nat → ℚ) (r : Nat → Nat → Option ℚ) (A t a : Nat)
    (h : ¬ 0 < l t a) : weightOf l r A t a = 0 := by
  cases hn : neut2Of l r A t a with
  | none => exact weightOf_none l r A t a hn
  | some v =>
    have hv : v = 0 := by
      cases hm : neutOf l r A t a with
      | none =>
        rw [neut2Of_none l r A t a hm] at hn
        cases hn
      | some u =>
        rw [neut2Of_some l r A t a u hm, if_neg h] at hn
        cases hn
        rfl
    subst hv
    rw [weightOf_some l r A t a 0 hn]
    split <;> simp

theorem weightOf_of_absSum_eq_zero (l : Nat → Nat → ℚ) (r : Nat → Nat → Option ℚ)
    (A t a : Nat) (h : absSumOf l r A t = 0) : weightOf l r A t a = 0 := by
  cases hn : neut2Of l r A t a with
  | none => exact weightOf_none l r A t a hn
  | some v => rw [weightOf_some l r A t a v hn, if_pos h]

theorem abs_le_absSum (l : Nat → Nat → ℚ) (r : Nat → Nat → Option ℚ) (A t a : Nat) (v : ℚ)
    (ha : a < A) (hn : neut2Of l r A t a = some v) : |v| ≤ absSumOf l r A t := by
  have h2 := Finset.single_le_sum (f := fun b => |(neut2Of l r A t b).getD 0|)
    (fun b _ => abs_nonneg _) (Finset.mem_range.mpr ha)
  simp only [hn, Option.getD_some] at h2
  simpa [absSumOf] using h2

theorem neut2Of_val_eq_zero_of_absSum (l : Nat → Nat → ℚ) (r : Nat → Nat → Option ℚ)
    (A t a : Nat) (v : ℚ) (h : absSumOf l r A t = 0) (ha : a < A)
    (hn : neut2Of l r A t a = some v) : v = 0 := by
  have h1 := abs_le_absSum l r A t a v ha hn
  rw [h] at h1
  exact abs_eq_zero.mp (le_antisymm h1 (abs_nonneg v))

/-- When the normalization denominator is nonzero, the absolute weights
over all assets sum to exactly 1 (full investment). -/
theorem sum_abs_weightOf (l : Nat → Nat → ℚ) (r : Nat → Nat → Option ℚ) (A t : Nat)
    (h : absSumOf l r A t ≠ 0) :
    Finset.sum (Finset.range A) (fun a => |weightOf l r A t a|) = 1 := by
  have hpos : 0 < absSumOf l r A t :=
    lt_of_le_of_ne (absSumOf_nonneg l r A t) (Ne.symm h)
  have hcongr : ∀ a ∈ Finset.range A,
      |weightOf l r A t a| = |(neut2Of l r A t a).getD 0| / absSumOf l r A t := by
    intro a _
    cases hn : neut2Of l r A t a with
    | none =>
      rw [weightOf_none l r A t a hn]
      simp
    | some v =>
      rw [weightOf_some l r A t a v hn, if_neg h, abs_div, abs_of_pos hpos]
      simp
  rw [Finset.sum_congr rfl hcongr, ← Finset.sum_div]
  have hS : Finset.sum (Finset.range A) (fun a => |(neut2Of l r A t a).getD 0|) =
      absSumOf l r A t := rfl
  rw [hS, div_self h]

/-- Cross-sectional neutrality, unconditional form: the sum of the final
weights over the liquid assets is exactly zero, because the weights of
the liquid assets contributing to the cross-sectional mean sum to zero
and every other liquid asset gets weight zero. -/
theorem sum_liquid_weightOf (l : Nat → Nat → ℚ) (r : Nat → Nat → Option ℚ) (A t : Nat) :
    Finset.sum ((Finset.range A).filter (fun a => 0 < l t a))
      (fun a => weightOf l r A t a) = 0 := by
  by_cases hS : absSumOf l r A t = 0
  · exact Finset.sum_eq_zero fun a _ => weightOf_of_absSum_eq_zero l r A t a hS
  · by_cases hcard : (liqSet l r A t).card = 0
    · refine absurd ?_ hS
      refine Finset.sum_eq_zero fun a _ => ?_
      rw [neut2Of_none l r A t a
        (neutOf_none_of_mean l r A t a (liqMeanOf_of_card_eq_zero l r A t hcard))]
      simp
    · have hmean := liqMeanOf_of_card_ne_zero l r A t hcard
      set μ := (liqSet l r A t).sum (fun a => (liqAvgOf l r t a).getD 0) /
        (liqSet l r A t).card with hμ
      have hsub : liqSet l r A t ⊆ (Finset.range A).filter (fun a => 0 < l t a) := by
        intro a ha
        rw [liqSet, Finset.mem_filter] at ha
        exact Finset.mem_filter.mpr ⟨ha.1, ha.2.1⟩
      have hzero : ∀ a ∈ (Finset.range A).filter (fun a => 0 < l t a),
          a ∉ liqSet l r A t → weightOf l r A t a = 0 := by
        intro a ha hna
        rw [Finset.mem_filter] at ha
        have hnone : liqAvgOf l r t a = none := by
          cases hv : liqAvgOf l r t a with
          | none => rfl
          | some v =>
            refine absurd ?_ hna
            rw [liqSet, Finset.mem_filter]
            exact ⟨ha.1, ha.2, by rw [hv]; rfl⟩
        exact weightOf_none l r A t a
          (neut2Of_none l r A t a (neutOf_none_of_avg l r A t a hnone))
      rw [← Finset.sum_subset hsub hzero]
      have hw : ∀ a ∈ liqSet l r A t,
          weightOf l r A t a = ((liqAvgOf l r t a).getD 0 - μ) / absSumOf l r A t := by
        intro a ha
        rw [liqSet, Finset.mem_filter] at ha
        obtain ⟨va, hva⟩ := Option.isSome_iff_exists.mp ha.2.2
        have hn2 : neut2Of l r A t a = some (va - μ) := by
          rw [neut2Of_some l r A t a (va - μ) (neutOf_some l r A t a va μ hva hmean),
            if_pos ha.2.1]
        rw [weightOf_some l r A t a (va - μ) hn2, if_neg hS, hva]
        rfl
      rw [Finset.sum_congr rfl hw, ← Finset.sum_div, Finset.sum_sub_distrib,
        Finset.sum_const, nsmul_eq_mul, hμ]
      rw [div_eq_zero_iff]
      left
      rw [mul_comm, div_mul_cancel₀ _ (Nat.cast_ne_zero.mpr hcard), sub_self]

/-! Reversal lemmas: `step` composed with a descending presentation of
an ascending panel computes the ascending pipeline. -/

theorem weightAt_rev_rev (T A : Nat) (price : Nat → Nat → Option ℚ)
    (liquid : Nat → Nat → ℚ) (t a : Nat) (ht : t ≤ T - 1) :
    weightAt (fun s b => price (T - 1 - (T - 1 - s)) b)
      (fun s b => liquid (T - 1 - (T - 1 - s)) b) A t a =
      weightAt price liquid A t a := by
  rw [weightAt, weightAt]
  apply weightOf_congr
  · intro s hs b
    apply ret_congr
    intro u hu c
    have he : T - 1 - (T - 1 - u) = u := by omega
    rw [he]
  · intro b
    have he : T - 1 - (T - 1 - t) = t := by omega
    rw [he]

theorem step_revPanel_eq (Q : Panel) (a : Nat) :
    step (revPanel Q) a = weightAt Q.price Q.liquid Q.A (Q.T - 1) a := by
  obtain ⟨T, A, price, liquid⟩ := Q
  exact weightAt_rev_rev T A price liquid (T - 1) a le_rfl

/-! Lemmas about the pandas return series `pct_change`. -/

theorem padPrice_of_isSome (price : Nat → Nat → Option ℚ) (t a : Nat)
    (h : (price t a).isSome = true) : padPrice price t a = price t a := by
  cases t with
  | zero => rfl
  | succ n =>
    obtain ⟨p, hp⟩ := Option.isSome_iff_exists.mp h
    simp only [padPrice, hp]

/-- On a price series with no missing entry, the `pct_change` return of
the pandas pipeline coincides with the `(p - p.shift)/p.shift` return of
the `step` pipeline: the forward-fill is vacuous and
`p1/p0 - 1 = (p1 - p0)/p0`. -/
theorem ret_eq_pctRet (price : Nat → Nat → Option ℚ)
    (h : ∀ t a, (price t a).isSome = true) (t a : Nat) :
    ret price t a = pctRet price t a := by
  rcases Nat.eq_zero_or_pos t with rfl | ht
  · rw [ret_zero]
    simp [pctRet]
  · have ht0 : t ≠ 0 := Nat.pos_iff_ne_zero.mp ht
    obtain ⟨p0, hp0⟩ := Option.isSome_iff_exists.mp (h (t - 1) a)
    obtain ⟨p1, hp1⟩ := Option.isSome_iff_exists.mp (h t a)
    have hpad0 : padPrice price (t - 1) a = some p0 := by
      rw [padPrice_of_isSome price (t - 1) a (h (t - 1) a), hp0]
    have hpad1 : padPrice price t a = some p1 := by
      rw [padPrice_of_isSome price t a (h t a), hp1]
    by_cases hz : p0 = 0
    · subst hz
      rw [ret_eq_none_of_denom_zero price t a hp0]
      simp [pctRet, ht0, hpad0, hpad1]
    · rw [ret_eq_some price t a p0 p1 ht0 hp0 hz hp1]
      simp only [pctRet, if_neg ht0, hpad0, hpad1, if_neg hz]
      rw [sub_div, div_self hz]

/-! Evaluation kit for concrete two-asset panels. -/

theorem liqSet_all (l : Nat → Nat → ℚ) (r : Nat → Nat → Option ℚ) (A t : Nat)
    (h : ∀ a, a < A → 0 < l t a ∧ (liqAvgOf l r t a).isSome = true) :
    liqSet l r A t = Finset.range A := by
  rw [liqSet]
  exact Finset.filter_true_of_mem fun a ha => h a (Finset.mem_range.mp ha)

/-- Full evaluation of the cross-sectional stage for two fully liquid
assets with defined rolling means `v0` and `v1`. -/
theorem pipeline_eval2 (l : Nat → Nat → ℚ) (r : Nat → Nat → Option ℚ) (t : Nat) (v0 v1 : ℚ)
    (hl : ∀ a, l t a = 1)
    (h0 : avgRetOf r t 0 = some v0) (h1 : avgRetOf r t 1 = some v1) :
    absSumOf l r 2 t = |v0 - (v0 + v1) / 2| + |v1 - (v0 + v1) / 2| ∧
    neut2Of l r 2 t 0 = some (v0 - (v0 + v1) / 2) ∧
    neut2Of l r 2 t 1 = some (v1 - (v0 + v1) / 2) := by
  have hpos : ∀ a, 0 < l t a := fun a => by rw [hl a]; norm_num
  have hla0 : liqAvgOf l r t 0 = some v0 := by
    rw [liqAvgOf_some l r t 0 v0 h0, if_pos (hpos 0)]
  have hla1 : liqAvgOf l r t 1 = some v1 := by
    rw [liqAvgOf_some l r t 1 v1 h1, if_pos (hpos 1)]
  have hset : liqSet l r 2 t = Finset.range 2 := by
    refine liqSet_all l r 2 t fun a ha => ?_
    interval_cases a
    · exact ⟨hpos 0, by rw [hla0]; rfl⟩
    · exact ⟨hpos 1, by rw [hla1]; rfl⟩
  have hcard : (liqSet l r 2 t).card = 2 := by rw [hset, Finset.card_range]
  have hsum : (liqSet l r 2 t).sum (fun a => (liqAvgOf l r t a).getD 0) = v0 + v1 := by
    rw [hset, Finset.sum_range_succ, Finset.sum_range_one, hla0, hla1]
    rfl
  have hmean : liqMeanOf l r 2 t = some ((v0 + v1) / 2) := by
    rw [liqMeanOf_of_card_ne_zero l r 2 t (by rw [hcard]; norm_num), hsum, hcard]
    norm_num
  have hn0 : neut2Of l r 2 t 0 = some (v0 - (v0 + v1) / 2) := by
    rw [neut2Of_some l r 2 t 0 _ (neutOf_some l r 2 t 0 v0 _ hla0 hmean),
      if_pos (hpos 0)]
  have hn1 : neut2Of l r 2 t 1 = some (v1 - (v0 + v1) / 2) := by
    rw [neut2Of_some l r 2 t 1 _ (neutOf_some l r 2 t 1 v1 _ hla1 hmean),
      if_pos (hpos 1)]
  refine ⟨?_, hn0, hn1⟩
  rw [absSumOf, Finset.sum_range_succ, Finset.sum_range_one, hn0, hn1]
  rfl

/-- The two final weights for two fully liquid assets with defined
rolling means and a nonzero normalization denominator. -/
theorem weight_eval2 (l : Nat → Nat → ℚ) (r : Nat → Nat → Option ℚ) (t : Nat) (v0 v1 : ℚ)
    (hl : ∀ a, l t a = 1)
    (h0 : avgRetOf r t 0 = some v0) (h1 : avgRetOf r t 1 = some v1)
    (hS : |v0 - (v0 + v1) / 2| + |v1 - (v0 + v1) / 2| ≠ 0) :
    weightOf l r 2 t 0 =
      (v0 - (v0 + v1) / 2) / (|v0 - (v0 + v1) / 2| + |v1 - (v0 + v1) / 2|) ∧
    weightOf l r 2 t 1 =
      (v1 - (v0 + v1) / 2) / (|v0 - (v0 + v1) / 2| + |v1 - (v0 + v1) / 2|) := by
  obtain ⟨hA, hn0, hn1⟩ := pipeline_eval2 l r t v0 v1 hl h0 h1
  have hS2 : absSumOf l r 2 t ≠ 0 := by rw [hA]; exact hS
  constructor
  · rw [weightOf_some l r 2 t 0 _ hn0, if_neg hS2, hA]
  · rw [weightOf_some l r 2 t 1 _ hn1, if_neg hS2, hA]

/-- Evaluation of the final weights when asset 0 is fully liquid with a
defined rolling mean but asset 1's rolling mean is undefined: the NaN
propagates, the denominator collapses to 0 and both weights are 0. -/
theorem weight_eval2_none1 (l : Nat → Nat → ℚ) (r : Nat → Nat → Option ℚ) (t : Nat)
    (v0 : ℚ) (hl : ∀ a, l t a = 1)
    (h0 : avgRetOf r t 0 = some v0) (h1 : avgRetOf r t 1 = none) :
    weightOf l r 2 t 0 = 0 ∧ weightOf l r 2 t 1 = 0 := by
  have hpos : ∀ a, 0 < l t a := fun a => by rw [hl a]; norm_num
  have hla0 : liqAvgOf l r t 0 = some v0 := by
    rw [liqAvgOf_some l r t 0 v0 h0, if_pos (hpos 0)]
  have hla1 : liqAvgOf l r t 1 = none := liqAvgOf_none l r t 1 h1
  have hset : liqSet l r 2 t = {0} := by
    rw [liqSet]
    ext a
    simp only [Finset.mem_filter, Finset.mem_range, Finset.mem_singleton]
    constructor
    · rintro ⟨ha, -, hsome⟩
      interval_cases a
      · rfl
      · rw [hla1] at hsome
        cases hsome
    · rintro rfl
      exact ⟨by norm_num, hpos 0, by rw [hla0]; rfl⟩
  have hcard : (liqSet l r 2 t).card = 1 := by rw [hset]; rfl
  have hsum : (liqSet l r 2 t).sum (fun a => (liqAvgOf l r t a).getD 0) = v0 := by
    rw [hset, Finset.sum_singleton, hla0]
    rfl
  have hmean : liqMeanOf l r 2 t = some v0 := by
    rw [liqMeanOf_of_card_ne_zero l r 2 t (by rw [hcard]; norm_num), hsum, hcard]
    norm_num
  have hn0 : neut2Of l r 2 t 0 = some 0 := by
    rw [neut2Of_some l r 2 t 0 _ (neutOf_some l r 2 t 0 v0 v0 hla0 hmean),
      if_pos (hpos 0), sub_self]
  have hn1 : neut2Of l r 2 t 1 = none := neut2Of_none_of_avg l r 2 t 1 h1
  have hA : absSumOf l r 2 t = 0 := by
    rw [absSumOf, Finset.sum_range_succ, Finset.sum_range_one, hn0, hn1]
    simp
  exact ⟨weightOf_of_absSum_eq_zero l r 2 t 0 hA, weightOf_of_absSum_eq_zero l r 2 t 1 hA⟩

/-- Rolling mean at time 100 of a return series that equals `c` at time
`j` of the window `[1, 100]` and 0 elsewhere in the window. -/
theorem avg_eval_single (r : Nat → Nat → Option ℚ) (a j : Nat) (c : ℚ)
    (hj1 : 1 ≤ j) (hj2 : j ≤ 100)
    (h : ∀ t, 1 ≤ t → t ≤ 100 → r t a = some (if t = j then c else 0)) :
    avgRetOf r 100 a = some (c / 100) := by
  have hdef : ∀ i ∈ Finset.range 100, (r (100 - 99 + i) a).isSome = true := by
    intro i hi
    rw [Finset.mem_range] at hi
    rw [h (100 - 99 + i) (by omega) (by omega)]
    rfl
  rw [avgRetOf_eq_some r 100 a (by norm_num) hdef]
  have hval : ∀ i ∈ Finset.range 100,
      (r (100 - 99 + i) a).getD 0 = if i = j - 1 then c else 0 := by
    intro i hi
    rw [Finset.mem_range] at hi
    rw [h (100 - 99 + i) (by omega) (by omega)]
    by_cases hij : 100 - 99 + i = j
    · rw [if_pos hij, if_pos (by omega)]
      rfl
    · rw [if_neg hij, if_neg (by omega)]
      rfl
  rw [Finset.sum_congr rfl hval, Finset.sum_ite_eq' (Finset.range 100) (j - 1) fun _ => c]
  rw [if_pos (Finset.mem_range.mpr (by omega))]

/-! Concrete return-series evaluations. -/

theorem ret_const_one (price : Nat → Nat → Option ℚ) (t a : Nat)
    (hp : ∀ s, price s a = some 1) (ht : t ≠ 0) : ret price t a = some 0 := by
  have h := ret_eq_some price t a 1 1 ht (hp (t - 1)) one_ne_zero (hp t)
  rw [h]
  norm_num

theorem avg_const_zero (r : Nat → Nat → Option ℚ) (a : Nat)
    (h : ∀ t, 1 ≤ t → t ≤ 100 → r t a = some 0) : avgRetOf r 100 a = some 0 := by
  have h2 := avg_eval_single r a 1 0 le_rfl (by norm_num)
    (fun t h1 h2 => by rw [h t h1 h2]; simp)
  rw [h2, zero_div]

theorem avg_ret_const_one (price : Nat → Nat → Option ℚ) (a : Nat)
    (hp : ∀ s, price s a = some 1) : avgRetOf (ret price) 100 a = some 0 :=
  avg_const_zero (ret price) a fun t h1 _ =>
    ret_const_one price t a hp (by omega)

theorem pct_const_one (price : Nat → Nat → Option ℚ) (t a : Nat)
    (hp : ∀ s, price s a = some 1) (ht : t ≠ 0) : pctRet price t a = some 0 := by
  have hpad : ∀ s, padPrice price s a = some 1 := fun s => by
    rw [padPrice_of_isSome price s a (by rw [hp s]; rfl), hp s]
  simp only [pctRet, if_neg ht, hpad (t - 1), hpad t]
  norm_num

theorem avg_pct_const_one (price : Nat → Nat → Option ℚ) (a : Nat)
    (hp : ∀ s, price s a = some 1) : avgRetOf (pctRet price) 100 a = some 0 :=
  avg_const_zero (pctRet price) a fun t h1 _ =>
    pct_const_one price t a hp (by omega)

theorem cPrice_eq (t a : Nat) : cPrice t a = some 1 := rfl

theorem bPrice_a0 (t : Nat) : bPrice t 0 = some 1 := by simp [bPrice]

theorem bPrice_a1_ne (t : Nat) (h : t ≠ 100) : bPrice t 1 = some 1 := by
  simp [bPrice, h]

theorem bPrice_a1_100 : bPrice 100 1 = some 2 := by simp [bPrice]

theorem ret_bPrice_a1_mid (t : Nat) (ht : t ≠ 0) (h1 : t ≠ 100) (h2 : t ≠ 101) :
    ret bPrice t 1 = some 0 := by
  have h := ret_eq_some bPrice t 1 1 1 ht (bPrice_a1_ne (t - 1) (by omega))
    one_ne_zero (bPrice_a1_ne t h1)
  rw [h]
  norm_num

theorem ret_bPrice_a1_100 : ret bPrice 100 1 = some 1 := by
  have h := ret_eq_some bPrice 100 1 1 2 (by norm_num)
    (bPrice_a1_ne 99 (by norm_num)) one_ne_zero bPrice_a1_100
  rw [h]
  norm_num

theorem avg_ret_bPrice_a0 : avgRetOf (ret bPrice) 100 0 = some 0 :=
  avg_ret_const_one bPrice 0 bPrice_a0

theorem avg_ret_bPrice_a1 : avgRetOf (ret bPrice) 100 1 = some (1 / 100) := by
  have h := avg_eval_single (ret bPrice) 1 100 1 (by norm_num) le_rfl ?hv
  · rw [h]
  case hv =>
    intro t h1 h2
    by_cases ht : t = 100
    · subst ht
      rw [ret_bPrice_a1_100, if_pos rfl]
    · rw [ret_bPrice_a1_mid t (by omega) ht (by omega), if_neg ht]

theorem rbPrice_a0 (t : Nat) : rbPrice t 0 = some 1 := by simp [rbPrice]

theorem rbPrice_a1_ne (t : Nat) (h : t ≠ 0) : rbPrice t 1 = some 1 := by
  simp [rbPrice, h]

theorem rbPrice_a1_0 : rbPrice 0 1 = some 2 := by simp [rbPrice]

theorem ret_rbPrice_a1_1 : ret rbPrice 1 1 = some (-(1 / 2)) := by
  have h := ret_eq_some rbPrice 1 1 2 1 (by norm_num) rbPrice_a1_0
    (by norm_num) (rbPrice_a1_ne 1 (by norm_num))
  rw [h]
  norm_num

theorem ret_rbPrice_a1_mid (t : Nat) (ht : t ≠ 0) (h1 : t ≠ 1) :
    ret rbPrice t 1 = some 0 := by
  have h := ret_eq_some rbPrice t 1 1 1 ht (rbPrice_a1_ne (t - 1) (by omega))
    one_ne_zero (rbPrice_a1_ne t ht)
  rw [h]
  norm_num

theorem avg_ret_rbPrice_a0 : avgRetOf (ret rbPrice) 100 0 = some 0 :=
  avg_ret_const_one rbPrice 0 rbPrice_a0

theorem avg_ret_rbPrice_a1 : avgRetOf (ret rbPrice) 100 1 = some (-(1 / 200)) := by
  have h := avg_eval_single (ret rbPrice) 1 1 (-(1 / 2)) le_rfl (by norm_num) ?hv
  · rw [h]
    norm_num
  case hv =>
    intro t h1 h2
    by_cases ht : t = 1
    · subst ht
      rw [ret_rbPrice_a1_1, if_pos rfl]
    · rw [ret_rbPrice_a1_mid t (by omega) ht, if_neg ht]

theorem gPrice_a0 (t : Nat) : gPrice t 0 = some 1 := by simp [gPrice]

theorem gPrice_a1_ne (t : Nat) (h50 : t ≠ 50) (h100 : t ≠ 100) :
    gPrice t 1 = some 1 := by
  simp [gPrice, h50, h100]

theorem gPrice_a1_50 : gPrice 50 1 = none := by simp [gPrice]

theorem gPrice_a1_100 : gPrice 100 1 = some 2 := by simp [gPrice]

theorem avg_ret_gPrice_a0 : avgRetOf (ret gPrice) 100 0 = some 0 :=
  avg_ret_const_one gPrice 0 gPrice_a0

theorem avg_ret_gPrice_a1 : avgRetOf (ret gPrice) 100 1 = none := by
  refine avgRetOf_eq_none_of_undef (ret gPrice) 100 1 49 (by norm_num) ?_
  have h : (100 : Nat) - 99 + 49 = 50 := by norm_num
  rw [h]
  exact ret_eq_none_of_num_none gPrice 50 1 gPrice_a1_50

theorem padPrice_none_step (price : Nat → Nat → Option ℚ) (t a : Nat)
    (h : price (t + 1) a = none) :
    padPrice price (t + 1) a = padPrice price t a := by
  simp only [padPrice, h]

theorem pad_gPrice_a1_ne (t : Nat) (h : t ≠ 100) : padPrice gPrice t 1 = some 1 := by
  by_cases h50 : t = 50
  · subst h50
    have hstep : padPrice gPrice (49 + 1) 1 = padPrice gPrice 49 1 :=
      padPrice_none_step gPrice 49 1 gPrice_a1_50
    rw [show (50 : Nat) = 49 + 1 from rfl, hstep,
      padPrice_of_isSome gPrice 49 1 (by rw [gPrice_a1_ne 49 (by norm_num) (by norm_num)]; rfl),
      gPrice_a1_ne 49 (by norm_num) (by norm_num)]
  · rw [padPrice_of_isSome gPrice t 1 (by rw [gPrice_a1_ne t h50 h]; rfl),
      gPrice_a1_ne t h50 h]

theorem pad_gPrice_a1_100 : padPrice gPrice 100 1 = some 2 := by
  rw [padPrice_of_isSome gPrice 100 1 (by rw [gPrice_a1_100]; rfl), gPrice_a1_100]

theorem pct_gPrice_a1_mid (t : Nat) (h1 : 1 ≤ t) (h2 : t ≤ 99) :
    pctRet gPrice t 1 = some 0 := by
  simp only [pctRet, if_neg (by omega : ¬ t = 0),
    pad_gPrice_a1_ne (t - 1) (by omega), pad_gPrice_a1_ne t (by omega)]
  norm_num

theorem pct_gPrice_a1_100 : pctRet gPrice 100 1 = some 1 := by
  simp only [pctRet, if_neg (by norm_num : ¬ (100 : Nat) = 0),
    pad_gPrice_a1_ne 99 (by norm_num), pad_gPrice_a1_100]
  norm_num

theorem avg_pct_gPrice_a0 : avgRetOf (pctRet gPrice) 100 0 = some 0 :=
  avg_pct_const_one gPrice 0 gPrice_a0

theorem avg_pct_gPrice_a1 : avgRetOf (pctRet gPrice) 100 1 = some (1 / 100) := by
  have h := avg_eval_single (pctRet gPrice) 1 100 1 (by norm_num) le_rfl ?hv
  · rw [h]
  case hv =>
    intro t h1 h2
    by_cases ht : t = 100
    · subst ht
      rw [pct_gPrice_a1_100, if_pos rfl]
    · rw [pct_gPrice_a1_mid t h1 (by omega), if_neg ht]

/-! Concrete weight evaluations at time 100 for the three panels. -/

theorem absSum_bump : absSumOf oneLiq (ret bPrice) 2 100 = 1 / 100 := by
  obtain ⟨hA, -, -⟩ := pipeline_eval2 oneLiq (ret bPrice) 100 0 (1 / 100)
    (fun a => rfl) avg_ret_bPrice_a0 avg_ret_bPrice_a1
  rw [hA, show (0 : ℚ) - (0 + 1 / 100) / 2 = -(1 / 200) by norm_num,
    show (1 / 100 : ℚ) - (0 + 1 / 100) / 2 = 1 / 200 by norm_num,
    abs_of_neg (by norm_num : (-(1 / 200) : ℚ) < 0),
    abs_of_pos (by norm_num : (0 : ℚ) < 1 / 200)]
  norm_num

theorem w_bump_1 : weightAt bPrice oneLiq 2 100 1 = 1 / 2 := by
  have hS : |(0 : ℚ) - (0 + 1 / 100) / 2| + |(1 / 100 : ℚ) - (0 + 1 / 100) / 2| ≠ 0 := by
    rw [show (0 : ℚ) - (0 + 1 / 100) / 2 = -(1 / 200) by norm_num,
      show (1 / 100 : ℚ) - (0 + 1 / 100) / 2 = 1 / 200 by norm_num,
      abs_of_neg (by norm_num : (-(1 / 200) : ℚ) < 0),
      abs_of_pos (by norm_num : (0 : ℚ) < 1 / 200)]
    norm_num
  obtain ⟨-, h1⟩ := weight_eval2 oneLiq (ret bPrice) 100 0 (1 / 100)
    (fun a => rfl) avg_ret_bPrice_a0 avg_ret_bPrice_a1 hS
  rw [weightAt, h1, show (1 / 100 : ℚ) - (0 + 1 / 100) / 2 = 1 / 200 by norm_num,
    show (0 : ℚ) - (0 + 1 / 100) / 2 = -(1 / 200) by norm_num,
    abs_of_neg (by norm_num : (-(1 / 200) : ℚ) < 0),
    abs_of_pos (by norm_num : (0 : ℚ) < 1 / 200)]
  norm_num

theorem w_rbump_1 : weightOf oneLiq (ret rbPrice) 2 100 1 = -(1 / 2) := by
  have hS : |(0 : ℚ) - (0 + -(1 / 200)) / 2| + |(-(1 / 200) : ℚ) - (0 + -(1 / 200)) / 2| ≠ 0 := by
    rw [show (0 : ℚ) - (0 + -(1 / 200)) / 2 = 1 / 400 by norm_num,
      show (-(1 / 200) : ℚ) - (0 + -(1 / 200)) / 2 = -(1 / 400) by norm_num,
      abs_of_neg (by norm_num : (-(1 / 400) : ℚ) < 0),
      abs_of_pos (by norm_num : (0 : ℚ) < 1 / 400)]
    norm_num
  obtain ⟨-, h1⟩ := weight_eval2 oneLiq (ret rbPrice) 100 0 (-(1 / 200))
    (fun a => rfl) avg_ret_rbPrice_a0 avg_ret_rbPrice_a1 hS
  rw [h1, show (-(1 / 200) : ℚ) - (0 + -(1 / 200)) / 2 = -(1 / 400) by norm_num,
    show (0 : ℚ) - (0 + -(1 / 200)) / 2 = 1 / 400 by norm_num,
    abs_of_neg (by norm_num : (-(1 / 400) : ℚ) < 0),
    abs_of_pos (by norm_num : (0 : ℚ) < 1 / 400)]
  norm_num

theorem w_gap_step_1 : weightAt gPrice oneLiq 2 100 1 = 0 := by
  obtain ⟨-, h1⟩ := weight_eval2_none1 oneLiq (ret gPrice) 100 0
    (fun a => rfl) avg_ret_gPrice_a0 avg_ret_gPrice_a1
  rw [weightAt]
  exact h1

theorem w_gap_pandas_1 : pandasWeightAt gPrice oneLiq 2 100 1 = 1 / 2 := by
  have hS : |(0 : ℚ) - (0 + 1 / 100) / 2| + |(1 / 100 : ℚ) - (0 + 1 / 100) / 2| ≠ 0 := by
    rw [show (0 : ℚ) - (0 + 1 / 100) / 2 = -(1 / 200) by norm_num,
      show (1 / 100 : ℚ) - (0 + 1 / 100) / 2 = 1 / 200 by norm_num,
      abs_of_neg (by norm_num : (-(1 / 200) : ℚ) < 0),
      abs_of_pos (by norm_num : (0 : ℚ) < 1 / 200)]
    norm_num
  obtain ⟨-, h1⟩ := weight_eval2 oneLiq (pctRet gPrice) 100 0 (1 / 100)
    (fun a => rfl) avg_pct_gPrice_a0 avg_pct_gPrice_a1 hS
  rw [pandasWeightAt, h1,
    show (1 / 100 : ℚ) - (0 + 1 / 100) / 2 = 1 / 200 by norm_num,
    show (0 : ℚ) - (0 + 1 / 100) / 2 = -(1 / 200) by norm_num,
    abs_of_neg (by norm_num : (-(1 / 200) : ℚ) < 0),
    abs_of_pos (by norm_num : (0 : ℚ) < 1 / 200)]
  norm_num

/-- The weight vector `step` returns on the ascending bump panel: it is
computed on the reversed time axis, whose price series is `rbPrice`. -/
theorem step_bumpPanel_1 : step bumpPanel 1 = -(1 / 2) := by
  have h1 : step bumpPanel 1 = weightOf oneLiq (ret rbPrice) 2 100 1 := by
    simp only [step, weightAt, revPanel, bumpPanel]
    apply weightOf_congr
    · intro s hs b
      apply ret_congr
      intro u hu c
      show bPrice (101 - 1 - u) c = rbPrice u c
      simp only [bPrice, rbPrice]
      by_cases hc : c = 1
      · by_cases hu0 : u = 0
        · subst hu0
          subst hc
          norm_num
        · have hne : ¬ (101 - 1 - u = 100) := by omega
          simp [hc, hu0, hne]
      · simp [hc]
    · intro b
      rfl
  rw [h1, w_rbump_1]

/-! Claim theorems. -/

/-- C1: No-lookahead.  If two panels agree at every (time, field, asset)
entry at all times up to and including `t`, the weights series of the
`step` pipeline (computed along the ascending time axis) is identical at
time `t` for all assets: the weight at time `t` is a function only of
panel entries at times at or before `t`. -/
theorem c1_no_lookahead (p1 p2 : Nat → Nat → Option ℚ) (l1 l2 : Nat → Nat → ℚ)
    (A t : Nat)
    (hp : ∀ s, s ≤ t → ∀ a, p1 s a = p2 s a)
    (hl : ∀ s, s ≤ t → ∀ a, l1 s a = l2 s a) :
    ∀ a, weightAt p1 l1 A t a = weightAt p2 l2 A t a := by
  intro a
  rw [weightAt, weightAt]
  apply weightOf_congr
  · intro s hs b
    exact ret_congr p1 p2 s b fun u hu c => hp u (le_trans hu hs) c
  · exact hl t le_rfl

theorem c1_no_lookahead_witness :
    (∀ s, s ≤ 5 → ∀ a, cPrice s a = wPrice s a) ∧
    weightAt cPrice oneLiq 2 5 0 = weightAt wPrice oneLiq 2 5 0 := by
  have hp : ∀ s, s ≤ 5 → ∀ a, cPrice s a = wPrice s a := by
    intro s hs a
    simp [cPrice, wPrice, hs]
  exact ⟨hp, c1_no_lookahead cPrice wPrice oneLiq oneLiq 2 5 hp (fun s _ a => rfl) 0⟩

/-- C2: Full-investment normalization.  At every time step at which all
assets have 100 defined trailing return observations, the sum of the
absolute weights is 0 or 1, and it is 0 only when the (re-masked)
neutralized signal of every asset is zero or every asset is illiquid. -/
theorem c2_full_investment (price : Nat → Nat → Option ℚ) (liquid : Nat → Nat → ℚ)
    (A t : Nat) (h : ∀ a, a < A → (avgRetOf (ret price) t a).isSome = true) :
    (Finset.sum (Finset.range A) (fun a => |weightAt price liquid A t a|) = 0 ∨
      Finset.sum (Finset.range A) (fun a => |weightAt price liquid A t a|) = 1) ∧
    (Finset.sum (Finset.range A) (fun a => |weightAt price liquid A t a|) = 0 →
      (∀ a, a < A → neut2Of liquid (ret price) A t a = some 0) ∨
      (∀ a, a < A → liquid t a ≤ 0)) := by
  have hsum_eq : Finset.sum (Finset.range A) (fun a => |weightAt price liquid A t a|) =
      Finset.sum (Finset.range A) (fun a => |weightOf liquid (ret price) A t a|) := rfl
  constructor
  · by_cases hS : absSumOf liquid (ret price) A t = 0
    · left
      refine Finset.sum_eq_zero fun a _ => ?_
      rw [weightAt, weightOf_of_absSum_eq_zero liquid (ret price) A t a hS, abs_zero]
    · right
      rw [hsum_eq]
      exact sum_abs_weightOf liquid (ret price) A t hS
  · intro hzero
    have hS : absSumOf liquid (ret price) A t = 0 := by
      by_contra hS
      have h1 := sum_abs_weightOf liquid (ret price) A t hS
      rw [hsum_eq] at hzero
      rw [hzero] at h1
      exact zero_ne_one h1
    by_cases hliq : ∃ a, a < A ∧ 0 < liquid t a
    · left
      obtain ⟨a0, ha0, hl0⟩ := hliq
      have hmem : a0 ∈ liqSet liquid (ret price) A t := by
        rw [liqSet, Finset.mem_filter]
        obtain ⟨v, hv⟩ := Option.isSome_iff_exists.mp (h a0 ha0)
        refine ⟨Finset.mem_range.mpr ha0, hl0, ?_⟩
        rw [liqAvgOf_some liquid (ret price) t a0 v hv]
        rfl
      have hcard : (liqSet liquid (ret price) A t).card ≠ 0 := by
        intro hc
        rw [Finset.card_eq_zero] at hc
        rw [hc] at hmem
        exact absurd hmem (Finset.not_mem_empty a0)
      have hmean := liqMeanOf_of_card_ne_zero liquid (ret price) A t hcard
      intro a ha
      obtain ⟨v, hv⟩ := Option.isSome_iff_exists.mp (h a ha)
      have hla := liqAvgOf_some liquid (ret price) t a v hv
      have hn := neut2Of_some liquid (ret price) A t a _
        (neutOf_some liquid (ret price) A t a _ _ hla hmean)
      have hz := neut2Of_val_eq_zero_of_absSum liquid (ret price) A t a _ hS ha hn
      rw [hn, hz]
    · right
      push_neg at hliq
      intro a ha
      exact hliq a ha

theorem c2_full_investment_witness :
    (∀ a, a < 2 → (avgRetOf (ret cPrice) 100 a).isSome = true) ∧
    (Finset.sum (Finset.range 2) (fun a => |weightAt cPrice oneLiq 2 100 a|) = 0 ∨
      Finset.sum (Finset.range 2) (fun a => |weightAt cPrice oneLiq 2 100 a|) = 1) := by
  have hdef : ∀ a, a < 2 → (avgRetOf (ret cPrice) 100 a).isSome = true := by
    intro a _
    rw [avg_ret_const_one cPrice a fun s => rfl]
    rfl
  exact ⟨hdef, (c2_full_investment cPrice oneLiq 2 100 hdef).1⟩

/-- C3: Liquidity mask invariant.  Whenever `is_liquid[t,a] ≤ 0`, the
weight of asset `a` at time `t` is 0, whatever the price history. -/
theorem c3_liquidity_mask (price : Nat → Nat → Option ℚ) (liquid : Nat → Nat → ℚ)
    (A t a : Nat) (h : liquid t a ≤ 0) : weightAt price liquid A t a = 0 :=
  weightOf_illiquid liquid (ret price) A t a (not_lt.mpr h)

theorem c3_liquidity_mask_witness :
    zeroLiq 7 0 ≤ 0 ∧ weightAt cPrice zeroLiq 2 7 0 = 0 :=
  ⟨le_refl 0, c3_liquidity_mask cPrice zeroLiq 2 7 0 (le_refl 0)⟩

/-- C4: Cross-sectional neutrality.  At a time step with at least one
liquid asset and a nonzero normalization denominator, the sum of the
final weights over the liquid assets is exactly 0 in exact rational
arithmetic. -/
theorem c4_cross_sectional_neutrality (price : Nat → Nat → Option ℚ)
    (liquid : Nat → Nat → ℚ) (A t : Nat)
    (_hliq : ∃ a, a < A ∧ 0 < liquid t a)
    (_hS : absSumOf liquid (ret price) A t ≠ 0) :
    Finset.sum ((Finset.range A).filter (fun a => 0 < liquid t a))
      (fun a => weightAt price liquid A t a) = 0 :=
  sum_liquid_weightOf liquid (ret price) A t

theorem c4_cross_sectional_neutrality_witness :
    (∃ a, a < 2 ∧ 0 < oneLiq 100 a) ∧ absSumOf oneLiq (ret bPrice) 2 100 ≠ 0 ∧
    Finset.sum ((Finset.range 2).filter (fun a => 0 < oneLiq 100 a))
      (fun a => weightAt bPrice oneLiq 2 100 a) = 0 := by
  have hliq : ∃ a, a < 2 ∧ 0 < oneLiq 100 a := ⟨0, by norm_num, by norm_num [oneLiq]⟩
  have hS : absSumOf oneLiq (ret bPrice) 2 100 ≠ 0 := by
    rw [absSum_bump]
    norm_num
  exact ⟨hliq, hS, c4_cross_sectional_neutrality bPrice oneLiq 2 100 hliq hS⟩

/-- C5 counterexample: on the ascending bump panel (101 trading days,
two fully liquid assets, asset 1's price jumping from 1 to 2 on the last
day), the value returned by `step` for asset 1 is not the weight of the
last (most recent) time index of that panel: the unconditional positional
reversal makes `step` compute returns along the reversed axis and
`weights[-1]` select the earliest date, giving `-(1/2)` instead of the
last-index weight `1/2`. -/
theorem c5_last_index_counterexample :
    step bumpPanel 1 ≠
      weightAt bumpPanel.price bumpPanel.liquid bumpPanel.A (bumpPanel.T - 1) 1 := by
  have hR : weightAt bumpPanel.price bumpPanel.liquid bumpPanel.A (bumpPanel.T - 1) 1 =
      1 / 2 := w_bump_1
  rw [step_bumpPanel_1, hR]
  norm_num

/-- C5 amended: when the supplied panel carries its time axis in
descending order — the convention of the raw data feed, i.e. the panel
is `revPanel Q` for an ascending panel `Q` — `step` returns exactly the
weight vector of the last (most recent) time index of `Q`, computed by
the ascending pipeline; on an ascending panel it instead returns the
earliest index's vector computed on reversed time. -/
theorem c5_last_index_amended (Q : Panel) (a : Nat) :
    step (revPanel Q) a = weightAt Q.price Q.liquid Q.A (Q.T - 1) a :=
  step_revPanel_eq Q a

/-- C6: Zero-denominator guard.  When the sum over assets of the
absolute re-masked neutralized signal is zero, every asset's weight is
(defined and) equal to 0; in the embedding every weight is a total
rational, mirroring that the division never surfaces an error. -/
theorem c6_zero_denominator (price : Nat → Nat → Option ℚ) (liquid : Nat → Nat → ℚ)
    (A t : Nat) (h : absSumOf liquid (ret price) A t = 0) :
    ∀ a, weightAt price liquid A t a = 0 :=
  fun a => weightOf_of_absSum_eq_zero liquid (ret price) A t a h

theorem c6_zero_denominator_witness :
    absSumOf oneLiq (ret cPrice) 2 0 = 0 ∧ weightAt cPrice oneLiq 2 0 1 = 0 := by
  have h : absSumOf oneLiq (ret cPrice) 2 0 = 0 := by
    rw [absSumOf]
    refine Finset.sum_eq_zero fun a _ => ?_
    rw [neut2Of_none_of_avg oneLiq (ret cPrice) 2 0 a
      (avgRet_ret_none_of_lt100 cPrice 0 a (by norm_num))]
    simp
  exact ⟨h, c6_zero_denominator cPrice oneLiq 2 0 h 1⟩

/-- C7: Insufficient-history soft degradation.  On a panel with fewer
than 101 time steps `step` returns the all-zero weight vector (and in
the weights series every time step with fewer than 100 trailing returns
carries zero weights); the computation is total, so no error is raised. -/
theorem c7_insufficient_history (P : Panel) (h : P.T < 101) :
    (∀ a, step P a = 0) ∧
    (∀ t, t < 100 → ∀ a, weightAt P.price P.liquid P.A t a = 0) := by
  have hw : ∀ (price : Nat → Nat → Option ℚ) (liquid : Nat → Nat → ℚ) (A t a : Nat),
      t < 100 → weightAt price liquid A t a = 0 := by
    intro price liquid A t a ht
    rw [weightAt, weightOf_none liquid (ret price) A t a
      (neut2Of_none_of_avg liquid (ret price) A t a
        (avgRet_ret_none_of_lt100 price t a ht))]
  constructor
  · intro a
    rw [step]
    exact hw _ _ _ _ _ (by omega)
  · intro t ht a
    exact hw _ _ _ _ _ ht

theorem c7_insufficient_history_witness :
    smallPanel.T < 101 ∧ step smallPanel 0 = 0 ∧
    weightAt smallPanel.price smallPanel.liquid smallPanel.A 3 1 = 0 := by
  have h : smallPanel.T < 101 := by norm_num [smallPanel]
  exact ⟨h, (c7_insufficient_history smallPanel h).1 0,
    (c7_insufficient_history smallPanel h).2 3 (by norm_num) 1⟩

/-- C8: Signal pipeline equals the reference definition.  The return at
`t > 0` with a present nonzero denominator price equals
`(price[t] - price[t-1]) / price[t-1]`, is undefined where the
denominator price is zero or absent, and at every `t ≥ 99` whose full
window of 100 trailing returns is defined the rolling mean equals the
arithmetic mean of `return[t-99..t]`. -/
theorem c8_signal_pipeline (price : Nat → Nat → Option ℚ) (t a : Nat) :
    (∀ p0 p1 : ℚ, t ≠ 0 → price (t - 1) a = some p0 → p0 ≠ 0 →
      price t a = some p1 → ret price t a = some ((p1 - p0) / p0)) ∧
    (t ≠ 0 → (price (t - 1) a = none ∨ price (t - 1) a = some 0) →
      ret price t a = none) ∧
    (99 ≤ t → (∀ i ∈ Finset.Icc (t - 99) t, (ret price i a).isSome = true) →
      avgRetOf (ret price) t a = some (specAvgReturn price t a)) := by
  refine ⟨fun p0 p1 ht h0 hz h1 => ret_eq_some price t a p0 p1 ht h0 hz h1,
    fun ht h => ?_, fun h99 hdef => ?_⟩
  · rcases h with h | h
    · exact ret_eq_none_of_denom_none price t a h
    · exact ret_eq_none_of_denom_zero price t a h
  · have hdef2 : ∀ i ∈ Finset.range 100, (ret price (t - 99 + i) a).isSome = true := by
      intro i hi
      rw [Finset.mem_range] at hi
      exact hdef (t - 99 + i) (Finset.mem_Icc.mpr ⟨by omega, by omega⟩)
    rw [avgRetOf_eq_some (ret price) t a h99 hdef2, specAvgReturn,
      ← Nat.Ico_succ_right, Finset.sum_Ico_eq_sum_range]
    have hc : t + 1 - (t - 99) = 100 := by omega
    rw [hc]

theorem c8_signal_pipeline_witness :
    ret cPrice 5 0 = some ((1 - 1) / 1) ∧ ret hPrice 100 0 = none ∧
    avgRetOf (ret cPrice) 100 0 = some (specAvgReturn cPrice 100 0) := by
  refine ⟨(c8_signal_pipeline cPrice 5 0).1 1 1 (by norm_num) rfl one_ne_zero rfl,
    (c8_signal_pipeline hPrice 100 0).2.1 (by norm_num) (Or.inl ?_),
    (c8_signal_pipeline cPrice 100 0).2.2 (by norm_num) ?_⟩
  · simp [hPrice]
  · intro i hi
    rw [Finset.mem_Icc] at hi
    rw [ret_const_one cPrice i 0 (fun s => rfl) (by omega)]
    rfl

/-- C9 counterexample: the result of the calculator on a panel supplied
in descending time order differs from its result on the same panel
supplied in ascending order, because the calculator reverses its input
unconditionally: on the bump panel the descending presentation yields
`1/2` for asset 1 while the ascending presentation yields `-(1/2)`. -/
theorem c9_reorder_counterexample : step (revPanel bumpPanel) 1 ≠ step bumpPanel 1 := by
  have hL : weightAt bumpPanel.price bumpPanel.liquid bumpPanel.A (bumpPanel.T - 1) 1 =
      1 / 2 := w_bump_1
  rw [step_revPanel_eq bumpPanel 1, hL, step_bumpPanel_1]
  norm_num

/-- C9 amended: on a panel supplied in descending time order the
calculator does reverse it into ascending order before computing
returns, the rolling mean and the output: its internal series agrees
with the ascending pipeline of the underlying ascending panel at every
in-range time step (but this does not coincide with calling the
calculator on the ascending panel, which gets reversed as well). -/
theorem c9_reorder_amended (Q : Panel) (t a : Nat) (ht : t < Q.T) :
    weightAt (revPanel (revPanel Q)).price (revPanel (revPanel Q)).liquid Q.A t a =
      weightAt Q.price Q.liquid Q.A t a := by
  obtain ⟨T, A, price, liquid⟩ := Q
  have ht2 : t < T := ht
  exact weightAt_rev_rev T A price liquid t a (by omega)

theorem c9_reorder_amended_witness :
    0 < tinyPanel.T ∧
    weightAt (revPanel (revPanel tinyPanel)).price (revPanel (revPanel tinyPanel)).liquid
      tinyPanel.A 0 0 = weightAt tinyPanel.price tinyPanel.liquid tinyPanel.A 0 0 :=
  ⟨Nat.zero_lt_one, c9_reorder_amended tinyPanel 0 0 Nat.zero_lt_one⟩

/-- C10 counterexample: on the gap panel (asset 1's close price missing
at one interior date), the weight `step` returns on the raw descending
presentation differs from the last row of the pandas pipeline on the
ascending data: `pct_change` forward-fills the missing price (yielding
weight `1/2` for asset 1) while `step`'s shift-based return propagates
the NaN through the rolling window (yielding weight 0). -/
theorem c10_equivalence_counterexample :
    step (revPanel gapPanel) 1 ≠
      pandasWeightAt gapPanel.price gapPanel.liquid gapPanel.A (gapPanel.T - 1) 1 := by
  have hL : weightAt gapPanel.price gapPanel.liquid gapPanel.A (gapPanel.T - 1) 1 = 0 :=
    w_gap_step_1
  have hR : pandasWeightAt gapPanel.price gapPanel.liquid gapPanel.A (gapPanel.T - 1) 1 =
      1 / 2 := w_gap_pandas_1
  rw [step_revPanel_eq gapPanel 1, hL, hR]
  norm_num

/-- C10 amended: on every panel in which no close price is missing the
forward-fill of `pct_change` is vacuous, and the weight vector `step`
returns on the raw (descending) presentation equals the last row of the
pandas weights pipeline on the ascending data. -/
theorem c10_equivalence_amended (Q : Panel)
    (h : ∀ t a, (Q.price t a).isSome = true) (a : Nat) :
    step (revPanel Q) a = pandasWeightAt Q.price Q.liquid Q.A (Q.T - 1) a := by
  rw [step_revPanel_eq Q a, weightAt, pandasWeightAt]
  apply weightOf_congr
  · intro s _ b
    exact ret_eq_pctRet Q.price h s b
  · intro b
    rfl

theorem c10_equivalence_amended_witness :
    (∀ t a, (smallPanel.price t a).isSome = true) ∧
    step (revPanel smallPanel) 0 =
      pandasWeightAt smallPanel.price smallPanel.liquid smallPanel.A
        (smallPanel.T - 1) 0 :=
  ⟨fun _ _ => rfl, c10_equivalence_amended smallPanel (fun _ _ => rfl) 0⟩
